import Mathlib

/-!
Verification of the fshasher library core against its specification.

The development shallowly embeds the parts of the source that the
statements below are about:

* `src/entry/filter.rs` : the `Filter` / `FilterAccepted` model;
* `src/entry/pattern.rs` : `PatternFilter` / `PatternFilterAccepted`;
* `src/entry/mod.rs` : `Entry::filtered`;
* `src/collector/context.rs` : `ContextPatterns::merge`;
* `src/collector/mod.rs` : the `check` tolerance helper;
* `src/walker/mod.rs` : `check_err`, `get_next_job`, the hashing
  dispatch loop, the final sort/absorb aggregation and the
  `Walker` state transitions (`reset`, `collect`, `hash`).

Rust `PathBuf` values are modelled as lists of components, each
component a list of bytes; `PathBuf::cmp` is the lexicographic
comparison of the component lists (component comparison is the
byte-wise comparison of `OsStr`).  Compiled glob patterns
(`glob::Pattern`, an external crate) are modelled as opaque boolean
matchers over paths; where the source compares patterns for equality
(`ContextPatterns::merge`) the glob source string is used instead.
Filesystem queries (`Path::exists`, `is_file`, `is_dir`) and the
pluggable hasher/reader are oracles passed in as functions.  The
concurrent hashing dispatch loop is serialized: batches produced by
`get_next_job` are processed one after the other, which is faithful
to every bookkeeping fact proved below (which items enter `hashes`,
with which states).
-/

namespace Fshasher

/-- One path component, as the byte sequence of its `OsStr`. -/
abbrev Component := List Nat

/-- A path, as the list of its components (model of `PathBuf`). -/
abbrev FsPath := List Component

/-- A byte vector (model of `Vec<u8>`). -/
abbrev ByteList := List Nat

/-- Three-way comparison on `Nat`, mirroring `Ord for u8`. -/
def cmpN (a b : Nat) : Ordering :=
  if a < b then .lt else if b < a then .gt else .eq

/-- Lexicographic comparison of lists given a comparison on elements;
this is how Rust compares slices, `OsStr` byte sequences and the
`Components` iterators of two `Path` values. -/
def lexCmp (c : A -> A -> Ordering) : List A -> List A -> Ordering
  | [], [] => .eq
  | [], _ :: _ => .lt
  | _ :: _, [] => .gt
  | a :: as_, b :: bs =>
    match c a b with
    | .eq => lexCmp c as_ bs
    | o => o

/-- Comparison of components: byte-wise. -/
def cmpComponent : Component -> Component -> Ordering := lexCmp cmpN

/-- Model of `PathBuf::cmp`: lexicographic over the components. -/
def pathCmp : FsPath -> FsPath -> Ordering := lexCmp cmpComponent

/-- Laws a three-way comparison can satisfy; `cmpN` satisfies them and
`lexCmp` preserves them. -/
structure CmpLaws (c : A -> A -> Ordering) : Prop where
  refl : ∀ a, c a a = .eq
  eq_iff : ∀ a b, c a b = .eq -> a = b
  swap : ∀ a b, c b a = (c a b).swap
  lt_trans : ∀ a b d, c a b = .lt -> c b d = .lt -> c a d = .lt

theorem cmpN_lt_iff (a b : Nat) : cmpN a b = Ordering.lt ↔ a < b := by
  unfold cmpN
  split_ifs with h1 h2 <;> simp <;> omega

theorem cmpN_gt_iff (a b : Nat) : cmpN a b = Ordering.gt ↔ b < a := by
  unfold cmpN
  split_ifs with h1 h2 <;> simp <;> omega

theorem cmpN_eq_iff (a b : Nat) : cmpN a b = Ordering.eq ↔ a = b := by
  unfold cmpN
  split_ifs with h1 h2 <;> simp <;> omega

theorem cmpN_laws : CmpLaws cmpN := by
  constructor
  · intro a; rw [cmpN_eq_iff]
  · intro a b h; rw [cmpN_eq_iff] at h; exact h
  · intro a b
    rcases Nat.lt_trichotomy a b with h | h | h
    · rw [(cmpN_lt_iff a b).2 h, (cmpN_gt_iff b a).2 h]; rfl
    · subst h
      rw [(cmpN_eq_iff a a).2 rfl]; rfl
    · rw [(cmpN_gt_iff a b).2 h, (cmpN_lt_iff b a).2 h]; rfl
  · intro a b d h1 h2
    rw [cmpN_lt_iff] at h1 h2 ⊢
    omega

theorem lexCmp_laws {c : A -> A -> Ordering} (hc : CmpLaws c) :
    CmpLaws (lexCmp c) := by
  constructor
  · intro a
    induction a with
    | nil => rfl
    | cons x xs ih => simp [lexCmp, hc.refl, ih]
  · intro a
    induction a with
    | nil =>
      intro b h
      cases b with
      | nil => rfl
      | cons y ys => simp [lexCmp] at h
    | cons x xs ih =>
      intro b h
      cases b with
      | nil => simp [lexCmp] at h
      | cons y ys =>
        cases hxy : c x y with
        | eq =>
          simp only [lexCmp, hxy] at h
          have hx := hc.eq_iff x y hxy
          rw [hx, ih ys h]
        | lt => simp [lexCmp, hxy] at h
        | gt => simp [lexCmp, hxy] at h
  · intro a
    induction a with
    | nil =>
      intro b
      cases b with
      | nil => rfl
      | cons y ys => rfl
    | cons x xs ih =>
      intro b
      cases b with
      | nil => rfl
      | cons y ys =>
        cases hxy : c x y with
        | eq =>
          have hyx : c y x = Ordering.eq := by rw [hc.swap x y, hxy]; rfl
          simp only [lexCmp, hxy, hyx]
          exact ih ys
        | lt =>
          have hyx : c y x = Ordering.gt := by rw [hc.swap x y, hxy]; rfl
          simp [lexCmp, hxy, hyx, Ordering.swap]
        | gt =>
          have hyx : c y x = Ordering.lt := by rw [hc.swap x y, hxy]; rfl
          simp [lexCmp, hxy, hyx, Ordering.swap]
  · intro a
    induction a with
    | nil =>
      intro b d h1 h2
      cases b with
      | nil => exact h2
      | cons y ys =>
        cases d with
        | nil => simp [lexCmp] at h2
        | cons z zs => rfl
    | cons x xs ih =>
      intro b d h1 h2
      cases b with
      | nil => simp [lexCmp] at h1
      | cons y ys =>
        cases d with
        | nil => simp [lexCmp] at h2
        | cons z zs =>
          cases hxy : c x y with
          | eq =>
            have hx := hc.eq_iff x y hxy
            subst hx
            simp only [lexCmp, hxy] at h1
            cases hyz : c x z with
            | eq =>
              have hz := hc.eq_iff x z hyz
              subst hz
              simp only [lexCmp, hyz] at h2 ⊢
              exact ih ys zs h1 h2
            | lt => simp only [lexCmp, hyz]
            | gt => simp [lexCmp, hyz] at h2
          | lt =>
            cases hyz : c y z with
            | eq =>
              have hz := hc.eq_iff y z hyz
              subst hz
              simp only [lexCmp, hxy]
            | lt =>
              simp only [lexCmp, hc.lt_trans x y z hxy hyz]
            | gt => simp [lexCmp, hyz] at h2
          | gt => simp [lexCmp, hxy] at h1

theorem pathCmp_laws : CmpLaws pathCmp :=
  lexCmp_laws (lexCmp_laws cmpN_laws)

theorem cmp_le_trans {c : A -> A -> Ordering} (hc : CmpLaws c) {a b d : A}
    (h1 : c a b ≠ Ordering.gt) (h2 : c b d ≠ Ordering.gt) :
    c a d ≠ Ordering.gt := by
  cases hab : c a b with
  | eq => rw [hc.eq_iff a b hab]; exact h2
  | gt => exact absurd hab h1
  | lt =>
    cases hbd : c b d with
    | eq => rw [← hc.eq_iff b d hbd]; exact h1
    | gt => exact absurd hbd h2
    | lt => rw [hc.lt_trans a b d hab hbd]; simp

theorem cmp_le_total {c : A -> A -> Ordering} (hc : CmpLaws c) (a b : A) :
    c a b ≠ Ordering.gt ∨ c b a ≠ Ordering.gt := by
  cases hab : c a b with
  | eq => left; simp
  | lt => left; simp
  | gt =>
    right
    rw [hc.swap a b, hab]
    simp [Ordering.swap]

theorem cmp_eq_of_le_le {c : A -> A -> Ordering} (hc : CmpLaws c) {a b : A}
    (h1 : c a b ≠ Ordering.gt) (h2 : c b a ≠ Ordering.gt) : a = b := by
  cases hab : c a b with
  | eq => exact hc.eq_iff a b hab
  | gt => exact absurd hab h1
  | lt =>
    exfalso
    apply h2
    rw [hc.swap a b, hab]
    rfl

/-- Model of the walker error type `walker::E` (`src/walker/error.rs`),
restricted to the variants the claims are about.  `bound` is
`E::Bound(PathBuf, Box<Self>)`, `readingIOError` is
`E::ReadingIOError(io::Error)` (the target of `From<io::Error>`). -/
inductive WErr where
  | readingIOError (msg : String)
  | hasher (msg : String)
  | reader (msg : String)
  | aborted
  | bound (path : FsPath) (inner : WErr)
  deriving DecidableEq, Repr

/-- Model of the collector error type `collector::E`
(`src/collector/error.rs`).  Note: it has no variant pairing a path
with an inner error (no analogue of `walker::E::Bound`). -/
inductive CErr where
  | patternError (msg : String)
  | io (msg : String)
  | noAvailableWorkers
  | joinError (msg : String)
  | optimalThreadsNumber
  | aborted
  | channelErr (msg : String)
  deriving DecidableEq, Repr

/-- Model of `Tolerance` (`src/collector/mod.rs`). -/
inductive Tolerance where
  | logErrors
  | doNotLogErrors
  | stopOnErrors
  deriving DecidableEq, Repr

/-- Model of `type HashItem = (PathBuf, Option<Result<Vec<u8>, E>>)`
(`src/walker/mod.rs`): `none` is the Unhashed state, `some (.ok h)`
is HashOk, `some (.error e)` is HashErr. -/
abbrev HashItem := FsPath × Option (Except WErr ByteList)

/-- The comparison used by `hashes.sort_by(|(a, _), (b, _)| a.cmp(b))`
in `Walker::hash`, as a non-strict order: item `a` may precede `b`. -/
def hashItemLe (a b : HashItem) : Prop := pathCmp a.1 b.1 ≠ Ordering.gt

instance : DecidableRel hashItemLe := fun a b => by
  unfold hashItemLe; infer_instance

instance : IsTotal HashItem hashItemLe :=
  ⟨fun a b => cmp_le_total pathCmp_laws a.1 b.1⟩

instance : IsTrans HashItem hashItemLe :=
  ⟨fun _ _ _ h1 h2 => cmp_le_trans pathCmp_laws h1 h2⟩

/-- Model of the sort performed at the end of `Walker::hash`
(`src/walker/mod.rs` line 548): a stable sort of the completed items
by `PathBuf::cmp` on the paths. -/
def sortByPath (l : List HashItem) : List HashItem :=
  List.insertionSort hashItemLe l

/-- Two sorted lists that are permutations of one another and whose
keys (paths) are pairwise distinct are equal. -/
theorem sorted_perm_nodup_eq :
    ∀ {l1 l2 : List HashItem}, l1.Perm l2 -> l1.Sorted hashItemLe ->
      l2.Sorted hashItemLe -> (l1.map Prod.fst).Nodup -> l1 = l2 := by
  intro l1
  induction l1 with
  | nil =>
    intro l2 hp _ _ _
    exact (hp.nil_eq).symm ▸ rfl
  | cons a t1 ih =>
    intro l2 hp hs1 hs2 hn
    cases l2 with
    | nil => exact absurd hp.symm.nil_eq (by simp)
    | cons b t2 =>
      by_cases hab : a = b
      · subst hab
        have hpt : t1.Perm t2 := hp.cons_inv
        have := ih hpt (List.sorted_cons.1 hs1).2 (List.sorted_cons.1 hs2).2
          (by simpa using (List.nodup_cons.1 (by simpa using hn)).2)
        rw [this]
      · exfalso
        have hamem : a ∈ b :: t2 := hp.subset (List.mem_cons_self a t1)
        have hat2 : a ∈ t2 := by
          cases List.mem_cons.1 hamem with
          | inl h => exact absurd h hab
          | inr h => exact h
        have hbmem : b ∈ a :: t1 := hp.symm.subset (List.mem_cons_self b t2)
        have hbt1 : b ∈ t1 := by
          cases List.mem_cons.1 hbmem with
          | inl h => exact absurd h.symm hab
          | inr h => exact h
        have h1 : hashItemLe a b := (List.sorted_cons.1 hs1).1 b hbt1
        have h2 : hashItemLe b a := (List.sorted_cons.1 hs2).1 a hat2
        have hkey : a.1 = b.1 := cmp_eq_of_le_le pathCmp_laws h1 h2
        have : a.1 ∈ t1.map Prod.fst := by
          rw [hkey]
          exact List.mem_map_of_mem Prod.fst hbt1
        exact (List.nodup_cons.1 (by simpa using hn)).1 this

/-- Sorting by path is insensitive to the arrival order of the items,
as long as the paths are pairwise distinct. -/
theorem sortByPath_eq_of_perm {l1 l2 : List HashItem}
    (hp : l1.Perm l2) (hn : (l1.map Prod.fst).Nodup) :
    sortByPath l1 = sortByPath l2 := by
  have hperm : (sortByPath l1).Perm (sortByPath l2) :=
    ((List.perm_insertionSort hashItemLe l1).trans hp).trans
      (List.perm_insertionSort hashItemLe l2).symm
  have hn1 : ((sortByPath l1).map Prod.fst).Nodup :=
    (((List.perm_insertionSort hashItemLe l1).map Prod.fst).nodup_iff).2 hn
  exact sorted_perm_nodup_eq hperm
    (List.sorted_insertionSort hashItemLe l1)
    (List.sorted_insertionSort hashItemLe l2) hn1

/-- The per-file digest recorded in a completed item, when successful
(the `Some(Ok(hash))` arm of the absorption loop in `Walker::hash`). -/
def okDigest (x : HashItem) : Option ByteList :=
  match x.2 with
  | some (.ok h) => some h
  | _ => none

/-- The sequence of per-file digests absorbed into the summary hasher
by `Walker::hash`: the completed items are sorted by path and the
successful digests are taken in that order (`src/walker/mod.rs`
lines 548-553). -/
def summaryAbsorbed (hashes : List HashItem) : List ByteList :=
  (sortByPath hashes).filterMap okDigest

/-- A compiled glob pattern (`glob::Pattern`, an external crate),
modelled as its matcher: the result of `matches_path` on a path. -/
abbrev GlobPattern := FsPath -> Bool

/-- Model of `FilterAccepted` (`src/entry/filter.rs`). -/
inductive FilterAccepted where
  | folders (p : GlobPattern)
  | files (p : GlobPattern)
  | common (p : GlobPattern)

/-- Model of `FilterAccepted::filtered` (`src/entry/filter.rs` lines
90-116).  `isFile` / `isDir` are the filesystem oracles behind
`Path::is_file` / `Path::is_dir`.  The source first selects the path
to match (`file_name()?` for `Files`, the full path for `Folders` and
`Common`), then gates on the path type: `Files` only for file-type
paths, `Folders` only for directory-type paths, `None` otherwise. -/
def FilterAccepted.filtered (isFile isDir : FsPath -> Bool)
    (self : FilterAccepted) (full_path : FsPath) : Option Bool :=
  match self with
  | .files p =>
    match full_path.getLast? with
    | none => none
    | some name => if isFile full_path then some (p [name]) else none
  | .folders p => if isDir full_path then some (p full_path) else none
  | .common p => some (p full_path)

/-- Model of the unvalidated `PatternFilter` (`src/entry/pattern.rs`),
with glob strings already compiled to matchers. -/
inductive PatternFilter where
  | ignore (p : GlobPattern)
  | accept (p : GlobPattern)
  | cmb (filters : List PatternFilter)

/-- Model of `PatternFilterAccepted` (`src/entry/pattern.rs`). -/
inductive PatternFilterAccepted where
  | ignore (p : GlobPattern)
  | accept (p : GlobPattern)
  | cmb (patterns : List PatternFilterAccepted)

/-- Constant `MAX_DEPTH` from `src/entry/pattern.rs`. -/
def MAX_DEPTH : Nat := 1

mutual

/-- Model of `TryInto<PatternFilterAccepted> for PatternFilter`
(`src/entry/pattern.rs` lines 28-47).  In the source the only error
source is glob compilation (`Pattern::new`), which the model elides
because patterns are pre-compiled matchers; the structure is mapped
over unchanged, with no check on `Cmb` nesting. -/
def PatternFilter.tryInto : PatternFilter -> Except String PatternFilterAccepted
  | .ignore p => .ok (.ignore p)
  | .accept p => .ok (.accept p)
  | .cmb filters =>
    match tryIntoList filters with
    | .error e => .error e
    | .ok ps => .ok (.cmb ps)

/-- The `for filter in filters { patterns.push(filter.try_into()?) }`
loop inside the `Cmb` arm of `try_into`. -/
def tryIntoList : List PatternFilter -> Except String (List PatternFilterAccepted)
  | [] => .ok []
  | f :: rest =>
    match f.tryInto with
    | .error e => .error e
    | .ok p =>
      match tryIntoList rest with
      | .error e => .error e
      | .ok ps => .ok (p :: ps)

end

mutual

/-- Model of `PatternFilterAccepted::filtered_with_depth`
(`src/entry/pattern.rs` lines 88-101).  The panic on nesting deeper
than `MAX_DEPTH` is modelled as `none`; a returned value is `some`. -/
def PatternFilterAccepted.filtered_with_depth
    (self : PatternFilterAccepted) (path : FsPath) (depth : Nat) : Option Bool :=
  if depth > MAX_DEPTH then none
  else
    match self with
    | .ignore p => some (!(p path))
    | .accept p => some (p path)
    | .cmb patterns =>
      match anyNotFiltered patterns path (depth + 1) with
      | none => none
      | some b => some (!b)

/-- The `patterns.iter().any(|p| !p.filtered_with_depth(path, depth + 1))`
iteration of the `Cmb` arm, with the short-circuiting of `any` kept
(a panic in a later element is not reached once an element fails). -/
def anyNotFiltered : List PatternFilterAccepted -> FsPath -> Nat -> Option Bool
  | [], _, _ => some false
  | p :: rest, path, depth =>
    match p.filtered_with_depth path depth with
    | none => none
    | some b => if !b then some true else anyNotFiltered rest path depth

end

/-- Model of `PatternFilterAccepted::filtered` (`src/entry/pattern.rs`
lines 70-72): evaluation starts at depth 0. -/
def PatternFilterAccepted.filtered
    (self : PatternFilterAccepted) (path : FsPath) : Option Bool :=
  self.filtered_with_depth path 0

/-- An accepted pattern filter that is not itself a combination. -/
def notCmb : PatternFilterAccepted -> Bool
  | .cmb _ => false
  | _ => true

/-- The documented invariant on accepted pattern filters: a `Cmb` never
directly contains another `Cmb` (nesting depth at most 1). -/
def noNestedCmb : PatternFilterAccepted -> Bool
  | .cmb ps => ps.all notCmb
  | _ => true

mutual

/-- Modelled from the spec: the total acceptance semantics of a
pattern filter — `Ignore(g)` accepts iff `g` does not match,
`Accept(g)` accepts iff `g` matches, `Combination(xs)` accepts iff
every element accepts (logical AND). -/
def specPatternAccepts : PatternFilterAccepted -> FsPath -> Bool
  | .ignore p, path => !(p path)
  | .accept p, path => p path
  | .cmb ps, path => specAllAccept ps path

/-- Conjunction over the elements of a spec-side combination. -/
def specAllAccept : List PatternFilterAccepted -> FsPath -> Bool
  | [], _ => true
  | p :: rest, path => specPatternAccepts p path && specAllAccept rest path

end

/-- Model of `Entry` (`src/entry/mod.rs`), restricted to the filter
lists that `Entry::filtered` reads (the Rust fields `include`,
`exclude` and `patterns`). -/
structure Entry where
  include_ : List FilterAccepted
  exclude : List FilterAccepted
  patterns : List PatternFilterAccepted

/-- The `self.patterns.iter().any(|pattern| pattern.filtered(&path))`
iteration of `Entry::filtered`, with `any`'s short-circuiting and
propagation of the panic (`none`) kept. -/
def anyPatternFiltered : List PatternFilterAccepted -> FsPath -> Option Bool
  | [], _ => some false
  | p :: rest, path =>
    match p.filtered path with
    | none => none
    | some true => some true
    | some false => anyPatternFiltered rest path

/-- Model of `Entry::filtered` (`src/entry/mod.rs` lines 307-325):
if `patterns` is non-empty, any pattern filter accepting decides;
otherwise an exclude match (`unwrap_or_default()`, i.e. `None ↦ false`)
rejects; otherwise an empty include list accepts, and a non-empty one
accepts iff some include filter returns `unwrap_or(true)`. -/
def Entry.filtered (isFile isDir : FsPath -> Bool)
    (self : Entry) (path : FsPath) : Option Bool :=
  if !self.patterns.isEmpty then
    anyPatternFiltered self.patterns path
  else if self.exclude.any
      (fun filter => (filter.filtered isFile isDir path).getD false) then
    some false
  else if self.include_.isEmpty then
    some true
  else
    some (self.include_.any
      (fun filter => (filter.filtered isFile isDir path).getD true))

/-- Modelled from the spec: an exclude filter "matches" a path,
treating not-applicable-to-type as not matching. -/
def specExcludeMatches (isFile isDir : FsPath -> Bool)
    (f : FilterAccepted) (path : FsPath) : Bool :=
  match f.filtered isFile isDir path with
  | some b => b
  | none => false

/-- Modelled from the spec: an include filter "accepts" a path,
treating not-applicable-to-type as accepting. -/
def specIncludeAccepts (isFile isDir : FsPath -> Bool)
    (f : FilterAccepted) (path : FsPath) : Bool :=
  match f.filtered isFile isDir path with
  | some b => b
  | none => true

/-- Modelled from the spec: the resolution order for a candidate path —
pattern filters, if any, decide alone; otherwise any matching exclude
rejects; otherwise an empty include list accepts and a non-empty one
requires some include filter to accept. -/
def specResolutionOrder (isFile isDir : FsPath -> Bool)
    (e : Entry) (path : FsPath) : Bool :=
  if !e.patterns.isEmpty then
    e.patterns.any (fun pat => specPatternAccepts pat path)
  else if e.exclude.any (fun f => specExcludeMatches isFile isDir f path) then
    false
  else if e.include_.isEmpty then
    true
  else
    e.include_.any (fun f => specIncludeAccepts isFile isDir f path)

/-- Model of `ContextPatterns` (`src/collector/context.rs`): the rules
parsed from a directory's context files.  A rule is the glob's source
string paired with its negative flag (leading `!`); the glob string
stands in for `glob::Pattern`, whose `PartialEq` compares sources. -/
structure ContextPatterns where
  accept : List (String × Bool)
  ignore : List (String × Bool)
  deriving DecidableEq, Repr

/-- One iteration of the loop in `ContextPatterns::merge`: push the
ancestor rule unless a rule with the same glob is already present. -/
def mergeStep (acc : List (String × Bool)) (pr : String × Bool) :
    List (String × Bool) :=
  if acc.any (fun q => q.1 = pr.1) then acc else acc ++ [pr]

/-- Model of `ContextPatterns::merge` (`src/collector/context.rs`
lines 30-36): every ignore rule of the ancestor context is appended
to `self.ignore` unless a rule with the same glob is already there;
the `accept` list is not touched. -/
def ContextPatterns.merge (self other : ContextPatterns) : ContextPatterns :=
  { self with ignore := other.ignore.foldl mergeStep self.ignore }

/-- The merging loop of `Context::consider` (`src/collector/context.rs`
lines 99-113): the directory's own patterns absorb, one ancestor
context at a time, the contexts accumulated higher up the tree. -/
def considerMerge (own : ContextPatterns) (ancestors : List ContextPatterns) :
    ContextPatterns :=
  ancestors.foldl (fun acc rel => acc.merge rel) own

/-- Model of the `check` tolerance helper inside `collect()`
(`src/collector/mod.rs` lines 184-204): under `StopOnErrors` the
inner error itself is returned (the collector error type has no
variant wrapping a path); otherwise the pair is retained in
`invalid`. -/
def collectorCheck (path : FsPath) (err : CErr)
    (invalid : List (FsPath × CErr)) (tolerance : Tolerance) :
    Except CErr (List (FsPath × CErr)) :=
  match tolerance with
  | .stopOnErrors => .error err
  | .logErrors => .ok (invalid ++ [(path, err)])
  | .doNotLogErrors => .ok (invalid ++ [(path, err)])

/-- Model of `check_err` inside `Walker::hash` (`src/walker/mod.rs`
lines 356-377): under `StopOnErrors` the error is wrapped as
`E::Bound(path, err)` and returned; otherwise the pair is pushed onto
`hashes` as a `HashErr` item. -/
def check_err (path : FsPath) (err : WErr) (tolerance : Tolerance)
    (hashes : List HashItem) : Except WErr (List HashItem) :=
  match tolerance with
  | .stopOnErrors => .error (.bound path err)
  | .logErrors => .ok (hashes ++ [(path, some (.error err))])
  | .doNotLogErrors => .ok (hashes ++ [(path, some (.error err))])

/-- Constant `MIN_PATHS_PER_JOB` from `src/walker/mod.rs`. -/
def MIN_PATHS_PER_JOB : Nat := 2

/-- Constant `MAX_PATHS_PER_JOB` from `src/walker/mod.rs`. -/
def MAX_PATHS_PER_JOB : Nat := 500

/-- Model of the batch size computed in `Walker::hash`
(`src/walker/mod.rs` lines 350-351):
`((total as f64 * 0.05).ceil() as usize).clamp(2, 500)`.
The ceiling of `total / 20` is computed exactly here; for every
`total` below 2^53 the `f64` expression rounds to exactly this value
(the relative error of `total * 0.05` stays under half an ulp and
never carries the product across an integer), and `clamp` is max with
the lower bound followed by min with the upper bound. -/
def paths_per_jobs (total : Nat) : Nat :=
  min (max ((total + 19) / 20) MIN_PATHS_PER_JOB) MAX_PATHS_PER_JOB

/-- The error built for a vanished path in `get_next_job`:
`io::Error::new(io::ErrorKind::NotFound, "File not found").into()`,
which lands in the `E::ReadingIOError` variant. -/
def notFoundError : WErr := .readingIOError "File not found"

/-- Model of `get_next_job` inside `Walker::hash` (`src/walker/mod.rs`
lines 378-403).  Paths are consumed from the front of `paths` until
the batch reaches `paths_per_jobs` entries or `paths` is exhausted:
an item whose state is already `some` (marked by the collector as an
error) is skipped; an item whose path no longer exists (`ex` is the
`Path::exists` oracle) goes through `check_err`; all other paths
enter the batch.  The result is the batch together with the remaining
paths and the updated `hashes`. -/
def get_next_job (ex : FsPath -> Bool) (ppj : Nat) (tolerance : Tolerance) :
    List HashItem -> List HashItem -> List FsPath ->
    Except WErr (List FsPath × List HashItem × List HashItem)
  | [], hashes, jobs => .ok (jobs, [], hashes)
  | (path, state) :: rest, hashes, jobs =>
    if jobs.length < ppj then
      match state with
      | some _ => get_next_job ex ppj tolerance rest hashes jobs
      | none =>
        if ex path then
          get_next_job ex ppj tolerance rest hashes (jobs ++ [path])
        else
          match check_err path notFoundError tolerance hashes with
          | .error e => .error e
          | .ok hashes1 => get_next_job ex ppj tolerance rest hashes1 jobs
    else .ok (jobs, (path, state) :: rest, hashes)

/-- The per-batch error reporting: a worker sends `Action::Error(path,
err)` for each failing path in batch order, and the dispatch loop
feeds each through `check_err` (`src/walker/mod.rs` lines 529-533);
under `StopOnErrors` the first one aborts the loop. -/
def report_errs (hashFn : FsPath -> Except WErr ByteList) (tolerance : Tolerance) :
    List FsPath -> List HashItem -> Except WErr (List HashItem)
  | [], hashes => .ok hashes
  | p :: rest, hashes =>
    match hashFn p with
    | .ok _ => report_errs hashFn tolerance rest hashes
    | .error e =>
      match check_err p e tolerance hashes with
      | .error e1 => .error e1
      | .ok hashes1 => report_errs hashFn tolerance rest hashes1

/-- The per-batch successes: the items a worker returns in
`Action::Processed`, appended to `hashes` as `(path, Some(Ok(hash)))`
(`src/walker/mod.rs` lines 500-505). -/
def successes (hashFn : FsPath -> Except WErr ByteList)
    (jobs : List FsPath) : List HashItem :=
  jobs.filterMap (fun p =>
    match hashFn p with
    | .ok h => some (p, some (.ok h))
    | .error _ => none)

/-- Helper fact: `get_next_job` consumes paths: the batch grows only at the expense
of `paths`, so the leftover plus the batch never exceed the input. -/
theorem get_next_job_sizes (ex : FsPath -> Bool) (ppj : Nat) (tol : Tolerance) :
    ∀ (paths hashes : List HashItem) (jobs0 jobs : List FsPath)
      (rest h1 : List HashItem),
      get_next_job ex ppj tol paths hashes jobs0 = .ok (jobs, rest, h1) ->
      jobs0.length ≤ jobs.length ∧
        rest.length + jobs.length ≤ paths.length + jobs0.length := by
  intro paths
  induction paths with
  | nil =>
    intro hashes jobs0 jobs rest h1 h
    simp only [get_next_job, Except.ok.injEq, Prod.mk.injEq] at h
    obtain ⟨rfl, rfl, rfl⟩ := h
    simp
  | cons x restP ih =>
    intro hashes jobs0 jobs rest h1 h
    obtain ⟨path, state⟩ := x
    simp only [get_next_job] at h
    by_cases hlt : jobs0.length < ppj
    · rw [if_pos hlt] at h
      cases state with
      | some st =>
        have := ih hashes jobs0 jobs rest h1 h
        simp only [List.length_cons]
        omega
      | none =>
        by_cases hex : ex path
        · rw [if_pos hex] at h
          have := ih hashes (jobs0 ++ [path]) jobs rest h1 h
          simp only [List.length_append, List.length_cons, List.length_nil] at this
          simp only [List.length_cons]
          omega
        · rw [if_neg hex] at h
          cases hch : check_err path notFoundError tol hashes with
          | error e => rw [hch] at h; simp at h
          | ok hashes2 =>
            rw [hch] at h
            simp only at h
            have := ih hashes2 jobs0 jobs rest h1 h
            simp only [List.length_cons]
            omega
    · rw [if_neg hlt] at h
      simp only [Except.ok.injEq, Prod.mk.injEq] at h
      obtain ⟨rfl, rfl, rfl⟩ := h
      simp

/-- Model of the dispatch loop of `Walker::hash` (`src/walker/mod.rs`
lines 462-543), serialized: batches are drawn with `get_next_job` and
processed one after the other (worker errors first, then the
successes of `Action::Processed`), until no batch can be built.  The
result is the final `hashes` bookkeeping list. -/
def run_hashing (ex : FsPath -> Bool) (hashFn : FsPath -> Except WErr ByteList)
    (tol : Tolerance) (ppj : Nat) (paths hashes : List HashItem) :
    Except WErr (List HashItem) :=
  if hpe : paths.isEmpty then .ok hashes
  else
    match hg : get_next_job ex ppj tol paths hashes [] with
    | .error e => .error e
    | .ok (jobs, rest, hashes1) =>
      if hj : jobs.isEmpty then .ok hashes1
      else
        match report_errs hashFn tol jobs hashes1 with
        | .error e => .error e
        | .ok hashes2 =>
          run_hashing ex hashFn tol ppj rest (hashes2 ++ successes hashFn jobs)
termination_by paths.length
decreasing_by
  have hs := get_next_job_sizes ex ppj tol paths hashes [] jobs rest hashes1 hg
  simp only [List.length_nil] at hs
  have hjl : 0 < jobs.length := by
    cases jobs with
    | nil => simp at hj
    | cons a b => simp
  omega

/-- The number of successfully hashed items, as counted on
`self.paths` after `Walker::hash`'s aggregation
(`src/walker/mod.rs` lines 563-567). -/
def validCount (paths : List HashItem) : Nat :=
  paths.countP (fun x =>
    match x.2 with
    | some (.ok _) => true
    | _ => false)

/-- Model of the `Walker` state (`src/walker/mod.rs`), restricted to
the fields the claims are about: `paths`, the stored summary `hash`,
and the state of the cancellation token `breaker` (`aborted`). -/
structure WalkerState where
  paths : List HashItem
  hashVal : Option ByteList
  aborted : Bool

/-- Model of `Walker::reset` (`src/walker/mod.rs` lines 601-607):
clears `paths`, clears the stored hash, and resets the breaker. -/
def Walker.reset (_w : WalkerState) : WalkerState :=
  { paths := [], hashVal := none, aborted := false }

/-- Model of the state effect of a successful `Walker::collect`
(`src/walker/mod.rs` lines 204-234) for one entry: the state is reset
first, then the collector's outputs are appended — accepted paths as
Unhashed items, invalid paths with their recorded errors. -/
def Walker.collect (collected : List FsPath) (invalid : List (FsPath × WErr))
    (w : WalkerState) : WalkerState :=
  let w0 := Walker.reset w
  { w0 with
    paths := (w0.paths ++ collected.map (fun p => (p, none))) ++
      invalid.map (fun pe => (pe.1, some (.error pe.2))) }

/-- Model of `Walker::hash` (`src/walker/mod.rs` lines 317-587).  An
empty `paths` returns `Ok` with an empty byte vector at once.
Otherwise the dispatch loop runs on the taken-out `paths`; on success
the bookkeeping list is sorted by path, successful digests are
absorbed in sorted order into the summary hasher `H`, `paths` becomes
the sorted list, and the stored hash is the summary digest — unless
not a single item succeeded, in which case it is the empty byte
vector.  On error, `paths` stays taken out (empty) and the breaker is
never touched. -/
def Walker.hash (ex : FsPath -> Bool) (hashFn : FsPath -> Except WErr ByteList)
    (tol : Tolerance) (ppj : Nat) (H : List ByteList -> ByteList)
    (w : WalkerState) : Except WErr ByteList × WalkerState :=
  if w.paths.isEmpty then (.ok [], w)
  else
    match run_hashing ex hashFn tol ppj w.paths [] with
    | .error e => (.error e, { w with paths := [] })
    | .ok hashes =>
      let sorted := sortByPath hashes
      let digest :=
        if validCount sorted = 0 ∨ sorted.isEmpty = true then []
        else H (sorted.filterMap okDigest)
      (.ok digest, { w with paths := sorted, hashVal := some digest })

theorem filtered_with_depth_notCmb {p : PatternFilterAccepted}
    (hp : notCmb p = true) (path : FsPath) {d : Nat} (hd : d ≤ MAX_DEPTH) :
    p.filtered_with_depth path d = some (specPatternAccepts p path) := by
  cases p with
  | ignore q =>
    rw [PatternFilterAccepted.filtered_with_depth]
    rw [if_neg (by omega)]
    rfl
  | accept q =>
    rw [PatternFilterAccepted.filtered_with_depth]
    rw [if_neg (by omega)]
    rfl
  | cmb ps => simp [notCmb] at hp

theorem anyNotFiltered_notCmb {ps : List PatternFilterAccepted}
    (hps : ∀ p ∈ ps, notCmb p = true) (path : FsPath) :
    anyNotFiltered ps path 1 =
      some (ps.any (fun q => !(specPatternAccepts q path))) := by
  induction ps with
  | nil => simp [anyNotFiltered]
  | cons p rest ih =>
    rw [anyNotFiltered]
    rw [filtered_with_depth_notCmb (hps p (List.mem_cons_self p rest)) path
      (by simp [MAX_DEPTH])]
    simp only [List.any_cons]
    cases hacc : specPatternAccepts p path with
    | false => simp
    | true =>
      simp only [Bool.not_true, Bool.false_or, if_neg]
      simp
      exact ih (fun q hq => hps q (List.mem_cons_of_mem p hq))

theorem specAllAccept_eq_all (ps : List PatternFilterAccepted) (path : FsPath) :
    specAllAccept ps path = ps.all (fun q => specPatternAccepts q path) := by
  induction ps with
  | nil => rfl
  | cons p rest ih => simp [specAllAccept, ih]

theorem pattern_filtered_noNested {p : PatternFilterAccepted}
    (hp : noNestedCmb p = true) (path : FsPath) :
    p.filtered path = some (specPatternAccepts p path) := by
  cases p with
  | ignore q => rfl
  | accept q => rfl
  | cmb ps =>
    unfold PatternFilterAccepted.filtered
    rw [PatternFilterAccepted.filtered_with_depth]
    rw [if_neg (by simp [MAX_DEPTH])]
    simp only [noNestedCmb, List.all_eq_true] at hp
    rw [anyNotFiltered_notCmb hp path]
    simp only [specPatternAccepts, specAllAccept_eq_all]
    congr 1
    induction ps with
    | nil => rfl
    | cons q rest ih =>
      simp only [List.any_cons, List.all_cons, Bool.not_or, ih
        (fun x hx => hp x (List.mem_cons_of_mem q hx))]
      cases specPatternAccepts q path <;> simp

theorem anyPatternFiltered_noNested {ps : List PatternFilterAccepted}
    (hps : ∀ p ∈ ps, noNestedCmb p = true) (path : FsPath) :
    anyPatternFiltered ps path =
      some (ps.any (fun q => specPatternAccepts q path)) := by
  induction ps with
  | nil => rfl
  | cons p rest ih =>
    rw [anyPatternFiltered]
    rw [pattern_filtered_noNested (hps p (List.mem_cons_self p rest)) path]
    cases hacc : specPatternAccepts p path with
    | true => simp [List.any_cons, hacc]
    | false =>
      simp only [List.any_cons, hacc, Bool.false_or]
      exact ih (fun q hq => hps q (List.mem_cons_of_mem p hq))

theorem specExcludeMatches_eq (isFile isDir : FsPath -> Bool)
    (f : FilterAccepted) (path : FsPath) :
    specExcludeMatches isFile isDir f path =
      (f.filtered isFile isDir path).getD false := by
  unfold specExcludeMatches
  cases f.filtered isFile isDir path <;> rfl

theorem specIncludeAccepts_eq (isFile isDir : FsPath -> Bool)
    (f : FilterAccepted) (path : FsPath) :
    specIncludeAccepts isFile isDir f path =
      (f.filtered isFile isDir path).getD true := by
  unfold specIncludeAccepts
  cases f.filtered isFile isDir path <;> rfl

/-- C2: for every candidate path and entry whose accepted pattern
filters satisfy the documented nesting invariant, `Entry::filtered`
implements the spec's resolution order: a non-empty pattern-filter
list decides alone (some pattern accepts), otherwise any matching
exclude filter rejects (not-applicable counts as not matching),
otherwise an empty include list accepts and a non-empty one accepts
iff some include filter matches (not-applicable counts as
accepting). -/
theorem c2_entry_filtered_matches_spec (isFile isDir : FsPath -> Bool)
    (e : Entry) (path : FsPath)
    (hwf : ∀ pat ∈ e.patterns, noNestedCmb pat = true) :
    Entry.filtered isFile isDir e path =
      some (specResolutionOrder isFile isDir e path) := by
  unfold Entry.filtered specResolutionOrder
  by_cases hp : e.patterns.isEmpty
  · simp only [hp, Bool.not_true, Bool.false_eq_true, if_false, if_neg]
    simp only [specExcludeMatches_eq, specIncludeAccepts_eq]
    split_ifs with h1 h2 <;> rfl
  · simp only [hp, Bool.not_false, if_true, if_pos]
    exact anyPatternFiltered_noNested hwf path

/-- Witness for C2 at a concrete entry: one accept-everything pattern
filter, which satisfies the nesting invariant; the path is accepted
and the code agrees with the spec's resolution order. -/
theorem c2_witness :
    (∀ pat ∈ (Entry.mk [] [] [.accept (fun _ => true)]).patterns,
        noNestedCmb pat = true) ∧
      Entry.filtered (fun _ => false) (fun _ => true)
          (Entry.mk [] [] [.accept (fun _ => true)]) [[0]] =
        some (specResolutionOrder (fun _ => false) (fun _ => true)
          (Entry.mk [] [] [.accept (fun _ => true)]) [[0]]) := by
  refine ⟨?_, ?_⟩
  · intro pat hpat
    simp only [List.mem_singleton] at hpat
    subst hpat
    rfl
  · exact c2_entry_filtered_matches_spec (fun _ => false) (fun _ => true)
      (Entry.mk [] [] [.accept (fun _ => true)]) [[0]]
      (by
        intro pat hpat
        simp only [List.mem_singleton] at hpat
        subst hpat
        rfl)

/-- C1: the summary digest is the summary hasher applied to the
per-file digests taken in path-sorted order, so any two completion
orders of the same set of completed `(path, digest)` pairs (paths
pairwise distinct) give the same summary digest. -/
theorem c1_summary_digest_order_insensitive
    (H : List ByteList -> ByteList) (l1 l2 : List HashItem)
    (hp : l1.Perm l2) (hn : (l1.map Prod.fst).Nodup) :
    H (summaryAbsorbed l1) = H (summaryAbsorbed l2) := by
  unfold summaryAbsorbed
  rw [sortByPath_eq_of_perm hp hn]

/-- Witness for C1: two completion orders of the same two completed
pairs yield the same absorbed summary. -/
theorem c1_witness :
    ([(([[1]], some (.ok [7])) : HashItem), ([[0]], some (.ok [9]))]).Perm
        [(([[0]], some (.ok [9])) : HashItem), ([[1]], some (.ok [7]))] ∧
      (([(([[1]], some (.ok [7])) : HashItem),
          ([[0]], some (.ok [9]))]).map Prod.fst).Nodup ∧
      List.flatten (summaryAbsorbed
          [(([[1]], some (.ok [7])) : HashItem), ([[0]], some (.ok [9]))]) =
        List.flatten (summaryAbsorbed
          [(([[0]], some (.ok [9])) : HashItem), ([[1]], some (.ok [7]))]) :=
  ⟨List.Perm.swap (([[0]], some (.ok [9])) : HashItem)
      (([[1]], some (.ok [7])) : HashItem) [],
    by decide,
    c1_summary_digest_order_insensitive List.flatten _ _
      (List.Perm.swap (([[0]], some (.ok [9])) : HashItem)
        (([[1]], some (.ok [7])) : HashItem) [])
      (by decide)⟩

theorem mergeStep_mem {acc : List (String × Bool)} {pr x : String × Bool}
    (hx : x ∈ mergeStep acc pr) : x ∈ acc ∨ x = pr := by
  unfold mergeStep at hx
  split_ifs at hx
  · exact Or.inl hx
  · rcases List.mem_append.1 hx with h | h
    · exact Or.inl h
    · exact Or.inr (List.mem_singleton.1 h)

theorem mergeStep_key_mono {acc : List (String × Bool)} {pr : String × Bool}
    {g : String} (h : ∃ ng, (g, ng) ∈ acc) :
    ∃ ng, (g, ng) ∈ mergeStep acc pr := by
  obtain ⟨ng, hng⟩ := h
  unfold mergeStep
  split_ifs
  · exact ⟨ng, hng⟩
  · exact ⟨ng, List.mem_append_left _ hng⟩

theorem mergeStep_key_added (acc : List (String × Bool)) (pr : String × Bool) :
    ∃ ng, (pr.1, ng) ∈ mergeStep acc pr := by
  unfold mergeStep
  split_ifs with h
  · obtain ⟨q, hq, hkey⟩ := List.any_eq_true.1 h
    refine ⟨q.2, ?_⟩
    have : q = (pr.1, q.2) := by
      obtain ⟨q1, q2⟩ := q
      simp at hkey
      simp [hkey]
    exact this ▸ hq
  · exact ⟨pr.2, List.mem_append_right _ (by simp)⟩

theorem mergeStep_keys_nodup {acc : List (String × Bool)} (pr : String × Bool)
    (h : (acc.map Prod.fst).Nodup) :
    ((mergeStep acc pr).map Prod.fst).Nodup := by
  unfold mergeStep
  split_ifs with hany
  · exact h
  · rw [List.map_append, List.nodup_append]
    refine ⟨h, by simp, ?_⟩
    intro g hg hg1
    simp only [List.map_cons, List.map_nil, List.mem_singleton] at hg1
    subst hg1
    obtain ⟨q, hq, hkey⟩ := List.mem_map.1 hg
    exact absurd (List.any_eq_true.2 ⟨q, hq, by simp [hkey]⟩) hany

theorem foldl_mergeStep_mem :
    ∀ (L : List (String × Bool)) (acc : List (String × Bool))
      (x : String × Bool), x ∈ L.foldl mergeStep acc -> x ∈ acc ∨ x ∈ L := by
  intro L
  induction L with
  | nil => intro acc x hx; exact Or.inl hx
  | cons q rest ih =>
    intro acc x hx
    rcases ih (mergeStep acc q) x hx with h | h
    · rcases mergeStep_mem h with h1 | h1
      · exact Or.inl h1
      · exact Or.inr (h1 ▸ List.mem_cons_self q rest)
    · exact Or.inr (List.mem_cons_of_mem q h)

theorem foldl_mergeStep_key_mono :
    ∀ (L : List (String × Bool)) (acc : List (String × Bool)) (g : String),
      (∃ ng, (g, ng) ∈ acc) -> ∃ ng, (g, ng) ∈ L.foldl mergeStep acc := by
  intro L
  induction L with
  | nil => intro acc g h; exact h
  | cons q rest ih =>
    intro acc g h
    exact ih (mergeStep acc q) g (mergeStep_key_mono h)

theorem foldl_mergeStep_covers :
    ∀ (L : List (String × Bool)) (acc : List (String × Bool))
      (pr : String × Bool), pr ∈ L ->
      ∃ ng, (pr.1, ng) ∈ L.foldl mergeStep acc := by
  intro L
  induction L with
  | nil => intro acc pr h; simp at h
  | cons q rest ih =>
    intro acc pr h
    rcases List.mem_cons.1 h with h1 | h1
    · subst h1
      exact foldl_mergeStep_key_mono rest (mergeStep acc pr) pr.1
        (mergeStep_key_added acc pr)
    · exact ih (mergeStep acc q) pr h1

theorem foldl_mergeStep_keys_nodup :
    ∀ (L : List (String × Bool)) (acc : List (String × Bool)),
      (acc.map Prod.fst).Nodup ->
      ((L.foldl mergeStep acc).map Prod.fst).Nodup := by
  intro L
  induction L with
  | nil => intro acc h; exact h
  | cons q rest ih =>
    intro acc h
    exact ih (mergeStep acc q) (mergeStep_keys_nodup q h)

theorem considerMerge_cons (own a : ContextPatterns)
    (rest : List ContextPatterns) :
    considerMerge own (a :: rest) = considerMerge (own.merge a) rest := rfl

theorem considerMerge_accept (own : ContextPatterns)
    (ancestors : List ContextPatterns) :
    (considerMerge own ancestors).accept = own.accept := by
  induction ancestors generalizing own with
  | nil => rfl
  | cons a rest ih => rw [considerMerge_cons, ih]; rfl

theorem considerMerge_key_mono (ancestors : List ContextPatterns) :
    ∀ (own : ContextPatterns) (g : String),
      (∃ ng, (g, ng) ∈ own.ignore) ->
      ∃ ng, (g, ng) ∈ (considerMerge own ancestors).ignore := by
  induction ancestors with
  | nil => intro own g h; exact h
  | cons a rest ih =>
    intro own g h
    rw [considerMerge_cons]
    exact ih (own.merge a) g (foldl_mergeStep_key_mono a.ignore own.ignore g h)

/-- C5 counterexample: an ancestor context holding only an accept rule
contributes nothing to the merged context of a descendant directory —
the merged accept list stays empty although the claim requires the
union of accept rules as well. -/
theorem c5_counterexample :
    (considerMerge (ContextPatterns.mk [] [("x", false)])
        [ContextPatterns.mk [("a", false)] []]).accept = [] ∧
      ("a", false) ∈ (ContextPatterns.mk [("a", false)] []).accept :=
  ⟨rfl, by simp⟩

/-- C5 (amended): the context rules in effect at a directory are its
own accept and ignore rules plus, of the ancestor contexts, only the
ignore rules — every merged rule comes from the directory itself or
from an ancestor's ignore list, every ancestor ignore glob is
represented, duplicate globs are dropped, and ancestor accept rules
never propagate. -/
theorem c5_context_merge (own : ContextPatterns)
    (ancestors : List ContextPatterns) :
    (considerMerge own ancestors).accept = own.accept ∧
      (∀ x ∈ (considerMerge own ancestors).ignore,
        x ∈ own.ignore ∨ ∃ anc ∈ ancestors, x ∈ anc.ignore) ∧
      (∀ anc ∈ ancestors, ∀ pr ∈ anc.ignore,
        ∃ ng, (pr.1, ng) ∈ (considerMerge own ancestors).ignore) ∧
      ((own.ignore.map Prod.fst).Nodup ->
        (((considerMerge own ancestors).ignore).map Prod.fst).Nodup) := by
  refine ⟨considerMerge_accept own ancestors, ?_, ?_, ?_⟩
  · induction ancestors generalizing own with
    | nil => intro x hx; exact Or.inl hx
    | cons a rest ih =>
      intro x hx
      rw [considerMerge_cons] at hx
      rcases ih (own.merge a) x hx with h | h
      · rcases foldl_mergeStep_mem a.ignore own.ignore x h with h1 | h1
        · exact Or.inl h1
        · exact Or.inr ⟨a, List.mem_cons_self a rest, h1⟩
      · obtain ⟨anc, hanc, hmem⟩ := h
        exact Or.inr ⟨anc, List.mem_cons_of_mem a hanc, hmem⟩
  · induction ancestors generalizing own with
    | nil => intro anc hanc; simp at hanc
    | cons a rest ih =>
      intro anc hanc pr hpr
      rw [considerMerge_cons]
      rcases List.mem_cons.1 hanc with h1 | h1
      · subst h1
        exact considerMerge_key_mono rest (own.merge anc) pr.1
          (foldl_mergeStep_covers anc.ignore own.ignore pr hpr)
      · exact ih (own.merge a) anc h1 pr hpr
  · induction ancestors generalizing own with
    | nil => intro h; exact h
    | cons a rest ih =>
      intro h
      rw [considerMerge_cons]
      exact ih (own.merge a) (foldl_mergeStep_keys_nodup a.ignore own.ignore h)

/-- Witness for C5 at a concrete context: the directory's sole ignore
rule has pairwise distinct globs, and so does the merged result. -/
theorem c5_witness :
    ((ContextPatterns.mk [] [("x", false)]).ignore.map Prod.fst).Nodup ∧
      ((considerMerge (ContextPatterns.mk [] [("x", false)])
          [ContextPatterns.mk [("a", false)] [("y", true)]]).ignore.map
        Prod.fst).Nodup :=
  ⟨by decide,
    (c5_context_merge (ContextPatterns.mk [] [("x", false)])
        [ContextPatterns.mk [("a", false)] [("y", true)]]).2.2.2 (by decide)⟩

/-- C4 counterexample: under `StopOnErrors` the collecting phase
returns the inner error itself — the collector error type has no
path-wrapping variant, so the error carries no triggering path,
contrary to the claim that both phases return `Bound(path, inner)`. -/
theorem c4_counterexample :
    collectorCheck [[0]] (CErr.io "permission denied") []
        Tolerance.stopOnErrors =
      Except.error (CErr.io "permission denied") := rfl

/-- C4 (amended): under `StopOnErrors` the hashing phase wraps the
first error with its triggering path as `Bound(path, inner)`, while
the collecting phase returns the first inner error unwrapped. -/
theorem c4_stop_on_errors (path : FsPath) (werr : WErr)
    (hashes : List HashItem) (cerr : CErr) (invalid : List (FsPath × CErr)) :
    check_err path werr Tolerance.stopOnErrors hashes =
        Except.error (WErr.bound path werr) ∧
      collectorCheck path cerr invalid Tolerance.stopOnErrors =
        Except.error cerr :=
  ⟨rfl, rfl⟩

/-- C6: evaluation of the code at the failing input.  For the glob
`exclude` (matching exactly the component `[1]`) and the
directory-type path `[[0], [1]]` (a directory named `[1]` inside
`[0]`), `FilterAccepted::filtered` matches the glob against the full
path and answers `Some(false)`, although the glob matches the final
path component — matching the final component, as the claim and the
code's own doc comments state, would answer `Some(true)`. -/
theorem c6_folders_filter_full_path :
    FilterAccepted.filtered (fun _ => false) (fun _ => true)
        (.folders (fun path => decide (path = [[1]]))) [[0], [1]] =
      some false ∧
      (fun path : FsPath => decide (path = [[1]])) [[1]] = true :=
  ⟨rfl, rfl⟩

/-- C7: evaluation of the code at the failing input.  A pattern filter
with a combination directly inside a combination is accepted by
`try_into` without an error, and evaluating the accepted filter on
any path (here the empty path) reaches the nested-combination panic
branch of `filtered_with_depth` (modelled as `none`). -/
theorem c7_nested_cmb_accepted_then_panics :
    PatternFilter.tryInto
        (.cmb [.cmb [PatternFilter.accept (fun _ => true)]]) =
      Except.ok (.cmb [.cmb [PatternFilterAccepted.accept (fun _ => true)]]) ∧
      PatternFilterAccepted.filtered
        (.cmb [.cmb [PatternFilterAccepted.accept (fun _ => true)]]) [] =
      none := by
  constructor
  · simp [PatternFilter.tryInto, tryIntoList]
  · simp [PatternFilterAccepted.filtered,
      PatternFilterAccepted.filtered_with_depth, anyNotFiltered, MAX_DEPTH]

theorem get_next_job_batch_bound (ex : FsPath -> Bool) (ppj : Nat)
    (tol : Tolerance) :
    ∀ (paths hashes : List HashItem) (jobs0 jobs : List FsPath)
      (rest h1 : List HashItem),
      jobs0.length ≤ ppj ->
      get_next_job ex ppj tol paths hashes jobs0 = .ok (jobs, rest, h1) ->
      jobs.length ≤ ppj ∧ (jobs.length < ppj -> rest = []) := by
  intro paths
  induction paths with
  | nil =>
    intro hashes jobs0 jobs rest h1 hle h
    simp only [get_next_job, Except.ok.injEq, Prod.mk.injEq] at h
    obtain ⟨rfl, rfl, rfl⟩ := h
    exact ⟨hle, fun _ => rfl⟩
  | cons x restP ih =>
    intro hashes jobs0 jobs rest h1 hle h
    obtain ⟨path, state⟩ := x
    simp only [get_next_job] at h
    by_cases hlt : jobs0.length < ppj
    · rw [if_pos hlt] at h
      cases state with
      | some st => exact ih hashes jobs0 jobs rest h1 hle h
      | none =>
        by_cases hex : ex path
        · rw [if_pos hex] at h
          refine ih hashes (jobs0 ++ [path]) jobs rest h1 ?_ h
          simp only [List.length_append, List.length_cons, List.length_nil]
          omega
        · rw [if_neg hex] at h
          cases hch : check_err path notFoundError tol hashes with
          | error e => rw [hch] at h; simp at h
          | ok hashes2 =>
            rw [hch] at h
            simp only at h
            exact ih hashes2 jobs0 jobs rest h1 hle h
    · rw [if_neg hlt] at h
      simp only [Except.ok.injEq, Prod.mk.injEq] at h
      obtain ⟨rfl, rfl, rfl⟩ := h
      exact ⟨hle, fun hc => absurd hc hlt⟩

/-- C8: for T collected paths the batch size is
B = clamp(ceil(0.05 * T), 2, 500), every batch built by
`get_next_job` holds at most B paths, and a batch smaller than B is
only built when the remaining paths were exhausted while building
it (so fewer than B eligible paths remained). -/
theorem c8_batch_size (total : Nat) (ex : FsPath -> Bool) (tol : Tolerance)
    (paths hashes : List HashItem) (jobs : List FsPath)
    (rest h1 : List HashItem)
    (h : get_next_job ex (paths_per_jobs total) tol paths hashes [] =
      .ok (jobs, rest, h1)) :
    paths_per_jobs total = min (max ((total + 19) / 20) 2) 500 ∧
      jobs.length ≤ paths_per_jobs total ∧
      (jobs.length < paths_per_jobs total -> rest = []) := by
  have hb := get_next_job_batch_bound ex (paths_per_jobs total) tol paths
    hashes [] jobs rest h1 (by simp) h
  exact ⟨rfl, hb.1, hb.2⟩

/-- Witness for C8: with 3 collected paths the batch size is 2, and a
concrete `get_next_job` run builds a 2-path batch, leaving the third
path for the next batch. -/
theorem c8_witness :
    get_next_job (fun _ => true) (paths_per_jobs 3) Tolerance.logErrors
        [([[0]], none), ([[1]], none), ([[2]], none)] [] [] =
      .ok ([[[0]], [[1]]], [([[2]], none)], []) ∧
      ([[[0]], [[1]]] : List FsPath).length ≤ paths_per_jobs 3 ∧
      paths_per_jobs 3 = 2 :=
  ⟨rfl,
    (c8_batch_size 3 (fun _ => true) Tolerance.logErrors
      [([[0]], none), ([[1]], none), ([[2]], none)] [] [[[0]], [[1]]]
      [([[2]], none)] [] rfl).2.1,
    rfl⟩

/-- C9: every `collect()` first resets the walker — `reset` clears the
collected paths, clears the stored summary digest and resets the
cancellation token, so the collected state is independent of the
prior state; `hash()` performs no reset and leaves the cancellation
token exactly as it found it. -/
theorem c9_collect_resets_hash_keeps_breaker :
    (∀ w : WalkerState, Walker.reset w = WalkerState.mk [] none false) ∧
      (∀ (collected : List FsPath) (invalid : List (FsPath × WErr))
        (w w' : WalkerState),
        Walker.collect collected invalid w =
            Walker.collect collected invalid (Walker.reset w') ∧
          (Walker.collect collected invalid w).hashVal = none ∧
          (Walker.collect collected invalid w).aborted = false) ∧
      ∀ (ex : FsPath -> Bool) (hashFn : FsPath -> Except WErr ByteList)
        (tol : Tolerance) (ppj : Nat) (H : List ByteList -> ByteList)
        (w : WalkerState),
        ((Walker.hash ex hashFn tol ppj H w).2).aborted = w.aborted := by
  refine ⟨fun _ => rfl, fun c i w w' => ⟨rfl, rfl, rfl⟩, ?_⟩
  intro ex hashFn tol ppj H w
  unfold Walker.hash
  by_cases h : w.paths.isEmpty = true
  · simp [h]
  · rw [if_neg h]
    cases hr : run_hashing ex hashFn tol ppj w.paths [] <;> simp

/-- C10: `hash()` on an empty collected set returns `Ok` with a
zero-length byte vector and leaves the state untouched (no reset, no
error); and when hashing succeeds but not a single path produced a
successful digest, the returned bytes and the stored summary are the
empty vector, not the finalized digest of an empty absorption
sequence. -/
theorem c10_empty_summary :
    (∀ (ex : FsPath -> Bool) (hashFn : FsPath -> Except WErr ByteList)
        (tol : Tolerance) (ppj : Nat) (H : List ByteList -> ByteList)
        (w : WalkerState), w.paths = [] ->
        Walker.hash ex hashFn tol ppj H w = (Except.ok [], w)) ∧
      ∀ (ex : FsPath -> Bool) (hashFn : FsPath -> Except WErr ByteList)
        (tol : Tolerance) (ppj : Nat) (H : List ByteList -> ByteList)
        (w : WalkerState) (d : ByteList) (w' : WalkerState),
        Walker.hash ex hashFn tol ppj H w = (Except.ok d, w') ->
        validCount (w'.paths) = 0 -> w.paths ≠ [] ->
        d = [] ∧ w'.hashVal = some [] := by
  constructor
  · intro ex hashFn tol ppj H w hw
    unfold Walker.hash
    rw [if_pos (by simp [hw])]
  · intro ex hashFn tol ppj H w d w' h hv hne
    unfold Walker.hash at h
    rw [if_neg (by simpa using hne)] at h
    cases hr : run_hashing ex hashFn tol ppj w.paths [] with
    | error e => rw [hr] at h; simp at h
    | ok hashes =>
      rw [hr] at h
      simp only [Prod.mk.injEq, Except.ok.injEq] at h
      obtain ⟨hd, hw'⟩ := h
      subst hw'
      simp only at hv ⊢
      rw [if_pos (Or.inl hv)] at hd
      exact ⟨hd.symm, by rw [if_pos (Or.inl hv)]⟩

/-- Witness for C10: a walker that never collected returns `Ok([])`
with its state (including an aborted token) untouched; a walker whose
single path carries a collect-phase error finishes hashing with no
valid digest and stores the empty vector — not the summary hasher's
digest of an empty absorption sequence (here `[9, 9]`). -/
theorem c10_witness :
    ((WalkerState.mk [] none true).paths = [] ∧
      Walker.hash (fun _ => true) (fun _ => Except.ok [1])
          Tolerance.logErrors 2 (fun _ => [9, 9]) (WalkerState.mk [] none true) =
        (Except.ok [], WalkerState.mk [] none true)) ∧
      Walker.hash (fun _ => true) (fun _ => Except.ok [1]) Tolerance.logErrors 2
          (fun _ => [9, 9])
          (WalkerState.mk [([[5]], some (Except.error WErr.aborted))] none
            false) =
        (Except.ok [], WalkerState.mk [] (some []) false) ∧
      ([] : ByteList) = [] ∧ (WalkerState.mk ([] : List HashItem)
        (some ([] : ByteList)) false).hashVal = some [] := by
  have heval : Walker.hash (fun _ => true) (fun _ => Except.ok [1])
      Tolerance.logErrors 2 (fun _ => [9, 9])
      (WalkerState.mk [([[5]], some (Except.error WErr.aborted))] none false) =
      (Except.ok [], WalkerState.mk [] (some []) false) := by
    simp [Walker.hash, run_hashing, get_next_job, sortByPath, validCount,
      List.insertionSort]
  refine ⟨⟨rfl, c10_empty_summary.1 _ _ _ _ _ _ rfl⟩, heval, ?_, ?_⟩
  · exact (c10_empty_summary.2 (fun _ => true) (fun _ => Except.ok [1])
      Tolerance.logErrors 2 (fun _ => [9, 9])
      (WalkerState.mk [([[5]], some (Except.error WErr.aborted))] none false)
      [] (WalkerState.mk [] (some []) false) heval rfl (by simp)).1
  · exact (c10_empty_summary.2 (fun _ => true) (fun _ => Except.ok [1])
      Tolerance.logErrors 2 (fun _ => [9, 9])
      (WalkerState.mk [([[5]], some (Except.error WErr.aborted))] none false)
      [] (WalkerState.mk [] (some []) false) heval rfl (by simp)).2

theorem check_err_ok_eq {path : FsPath} {err : WErr} {tol : Tolerance}
    {hashes h1 : List HashItem}
    (h : check_err path err tol hashes = .ok h1) :
    h1 = hashes ++ [(path, some (.error err))] := by
  cases tol <;> simp [check_err] at h <;> exact h.symm

theorem get_next_job_spec (ex : FsPath -> Bool) (ppj : Nat) (tol : Tolerance) :
    ∀ (paths hashes : List HashItem) (jobs0 jobs : List FsPath)
      (rest h1 : List HashItem),
      get_next_job ex ppj tol paths hashes jobs0 = .ok (jobs, rest, h1) ->
      (∀ x ∈ h1, x ∈ hashes ∨ ((∃ r, x.2 = some r) ∧ (x.1, none) ∈ paths)) ∧
        (∀ p ∈ jobs, p ∈ jobs0 ∨ (p, none) ∈ paths) ∧
        (∀ y ∈ rest, y ∈ paths) := by
  intro paths
  induction paths with
  | nil =>
    intro hashes jobs0 jobs rest h1 h
    simp only [get_next_job, Except.ok.injEq, Prod.mk.injEq] at h
    obtain ⟨rfl, rfl, rfl⟩ := h
    exact ⟨fun x hx => Or.inl hx, fun p hp => Or.inl hp, by simp⟩
  | cons x restP ih =>
    intro hashes jobs0 jobs rest h1 h
    obtain ⟨path, state⟩ := x
    simp only [get_next_job] at h
    by_cases hlt : jobs0.length < ppj
    · rw [if_pos hlt] at h
      cases state with
      | some st =>
        obtain ⟨ha, hb, hc⟩ := ih hashes jobs0 jobs rest h1 h
        refine ⟨?_, ?_, ?_⟩
        · intro y hy
          rcases ha y hy with h2 | ⟨h2, h3⟩
          · exact Or.inl h2
          · exact Or.inr ⟨h2, List.mem_cons_of_mem _ h3⟩
        · intro p hp
          rcases hb p hp with h2 | h2
          · exact Or.inl h2
          · exact Or.inr (List.mem_cons_of_mem _ h2)
        · exact fun y hy => List.mem_cons_of_mem _ (hc y hy)
      | none =>
        by_cases hex : ex path
        · rw [if_pos hex] at h
          obtain ⟨ha, hb, hc⟩ := ih hashes (jobs0 ++ [path]) jobs rest h1 h
          refine ⟨?_, ?_, ?_⟩
          · intro y hy
            rcases ha y hy with h2 | ⟨h2, h3⟩
            · exact Or.inl h2
            · exact Or.inr ⟨h2, List.mem_cons_of_mem _ h3⟩
          · intro p hp
            rcases hb p hp with h2 | h2
            · rcases List.mem_append.1 h2 with h3 | h3
              · exact Or.inl h3
              · rw [List.mem_singleton.1 h3]
                exact Or.inr (List.mem_cons_self _ _)
            · exact Or.inr (List.mem_cons_of_mem _ h2)
          · exact fun y hy => List.mem_cons_of_mem _ (hc y hy)
        · rw [if_neg hex] at h
          cases hch : check_err path notFoundError tol hashes with
          | error e => rw [hch] at h; simp at h
          | ok hashes2 =>
            rw [hch] at h
            simp only at h
            obtain ⟨ha, hb, hc⟩ := ih hashes2 jobs0 jobs rest h1 h
            have hh2 := check_err_ok_eq hch
            refine ⟨?_, ?_, ?_⟩
            · intro y hy
              rcases ha y hy with h2 | ⟨h2, h3⟩
              · rw [hh2] at h2
                rcases List.mem_append.1 h2 with h3 | h3
                · exact Or.inl h3
                · rw [List.mem_singleton.1 h3]
                  exact Or.inr ⟨⟨Except.error notFoundError, rfl⟩,
                    List.mem_cons_self _ _⟩
              · exact Or.inr ⟨h2, List.mem_cons_of_mem _ h3⟩
            · intro p hp
              rcases hb p hp with h2 | h2
              · exact Or.inl h2
              · exact Or.inr (List.mem_cons_of_mem _ h2)
            · exact fun y hy => List.mem_cons_of_mem _ (hc y hy)
    · rw [if_neg hlt] at h
      simp only [Except.ok.injEq, Prod.mk.injEq] at h
      obtain ⟨rfl, rfl, rfl⟩ := h
      exact ⟨fun x hx => Or.inl hx, fun p hp => Or.inl hp, fun y hy => hy⟩

theorem report_errs_spec (hashFn : FsPath -> Except WErr ByteList)
    (tol : Tolerance) :
    ∀ (jobs : List FsPath) (hashes h2 : List HashItem),
      report_errs hashFn tol jobs hashes = .ok h2 ->
      ∀ x ∈ h2, x ∈ hashes ∨
        ((∃ e, x.2 = some (Except.error e)) ∧ x.1 ∈ jobs) := by
  intro jobs
  induction jobs with
  | nil =>
    intro hashes h2 h x hx
    simp only [report_errs, Except.ok.injEq] at h
    subst h
    exact Or.inl hx
  | cons p rest ih =>
    intro hashes h2 h x hx
    simp only [report_errs] at h
    cases hf : hashFn p with
    | ok v =>
      rw [hf] at h
      simp only at h
      rcases ih hashes h2 h x hx with h3 | ⟨h3, h4⟩
      · exact Or.inl h3
      · exact Or.inr ⟨h3, List.mem_cons_of_mem _ h4⟩
    | error e =>
      rw [hf] at h
      simp only at h
      cases hch : check_err p e tol hashes with
      | error e1 => rw [hch] at h; simp at h
      | ok hashes1 =>
        rw [hch] at h
        simp only at h
        rcases ih hashes1 h2 h x hx with h3 | ⟨h3, h4⟩
        · rw [check_err_ok_eq hch] at h3
          rcases List.mem_append.1 h3 with h4 | h4
          · exact Or.inl h4
          · rw [List.mem_singleton.1 h4]
            exact Or.inr ⟨⟨e, rfl⟩, List.mem_cons_self _ _⟩
        · exact Or.inr ⟨h3, List.mem_cons_of_mem _ h4⟩

theorem successes_spec (hashFn : FsPath -> Except WErr ByteList)
    (jobs : List FsPath) :
    ∀ x ∈ successes hashFn jobs,
      (∃ h, x.2 = some (Except.ok h)) ∧ x.1 ∈ jobs := by
  intro x hx
  simp only [successes, List.mem_filterMap] at hx
  obtain ⟨p, hp, heq⟩ := hx
  cases hf : hashFn p with
  | error e => rw [hf] at heq; simp at heq
  | ok v =>
    rw [hf] at heq
    simp only [Option.some.injEq] at heq
    subst heq
    exact ⟨⟨v, rfl⟩, hp⟩

theorem run_hashing_spec (ex : FsPath -> Bool)
    (hashFn : FsPath -> Except WErr ByteList) (tol : Tolerance) (ppj : Nat) :
    ∀ (n : Nat) (paths hashes out : List HashItem), paths.length ≤ n ->
      run_hashing ex hashFn tol ppj paths hashes = .ok out ->
      ∀ x ∈ out, x ∈ hashes ∨ ((∃ r, x.2 = some r) ∧ (x.1, none) ∈ paths) := by
  intro n
  induction n with
  | zero =>
    intro paths hashes out hlen h x hx
    have hpe : paths = [] := List.length_eq_zero.1 (Nat.le_zero.1 hlen)
    subst hpe
    unfold run_hashing at h
    rw [dif_pos (by rfl : ([] : List HashItem).isEmpty = true)] at h
    simp only [Except.ok.injEq] at h
    subst h
    exact Or.inl hx
  | succ n ihn =>
    intro paths hashes out hlen h x hx
    unfold run_hashing at h
    by_cases hpe : paths.isEmpty = true
    · rw [dif_pos hpe] at h
      simp only [Except.ok.injEq] at h
      subst h
      exact Or.inl hx
    · rw [dif_neg hpe] at h
      cases hg : get_next_job ex ppj tol paths hashes [] with
      | error e => rw [hg] at h; simp at h
      | ok res =>
        obtain ⟨jobs, rest, hashes1⟩ := res
        rw [hg] at h
        simp only at h
        obtain ⟨hA, hB, hC⟩ := get_next_job_spec ex ppj tol paths hashes []
          jobs rest hashes1 hg
        by_cases hj : jobs.isEmpty = true
        · rw [dif_pos hj] at h
          simp only [Except.ok.injEq] at h
          subst h
          exact hA x hx
        · rw [dif_neg hj] at h
          cases hre : report_errs hashFn tol jobs hashes1 with
          | error e => rw [hre] at h; simp at h
          | ok hashes2 =>
            rw [hre] at h
            simp only at h
            have hrest : rest.length ≤ n := by
              have hs := get_next_job_sizes ex ppj tol paths hashes [] jobs
                rest hashes1 hg
              have hjl : 0 < jobs.length := by
                cases jobs with
                | nil => simp at hj
                | cons a b => simp
              simp only [List.length_nil] at hs
              omega
            rcases ihn rest (hashes2 ++ successes hashFn jobs) out hrest h x hx
              with h2 | ⟨h2, h3⟩
            · rcases List.mem_append.1 h2 with h3 | h3
              · rcases report_errs_spec hashFn tol jobs hashes1 hashes2 hre x h3
                  with h4 | ⟨⟨e, h4⟩, h5⟩
                · exact hA x h4
                · rcases hB x.1 h5 with h6 | h6
                  · simp at h6
                  · exact Or.inr ⟨⟨Except.error e, h4⟩, h6⟩
              · obtain ⟨⟨v, h4⟩, h5⟩ := successes_spec hashFn jobs x h3
                rcases hB x.1 h5 with h6 | h6
                · simp at h6
                · exact Or.inr ⟨⟨Except.ok v, h4⟩, h6⟩
            · exact Or.inr ⟨h2, hC _ h3⟩

/-- C3 counterexample: a path whose error was recorded during
collection is present (with that error) after `collect()`, but after
a subsequent successful `hash()` it is no longer present in `paths` —
`get_next_job` removes items whose state is already `some` without
carrying them into the result. -/
theorem c3_counterexample :
    (Walker.collect [] [([[0]], WErr.reader "permission denied")]
        (WalkerState.mk [] none false)).paths =
      [([[0]], some (Except.error (WErr.reader "permission denied")))] ∧
      ((Walker.hash (fun _ => true) (fun _ => Except.ok [1])
          Tolerance.logErrors 2 (fun _ => [9])
          (Walker.collect [] [([[0]], WErr.reader "permission denied")]
            (WalkerState.mk [] none false))).2).paths = [] := by
  constructor
  · rfl
  · simp [Walker.collect, Walker.reset, Walker.hash, run_hashing,
      get_next_job, sortByPath, validCount, List.insertionSort]

/-- C3 (amended): after a successful `collect()` every item in
`paths` has state Unhashed (`None`) or HashErr; after `hash()` every
item still in `paths` has state HashOk or HashErr — but the paths
whose error was recorded during collection are removed during
hashing rather than retained: when the collected paths are pairwise
distinct, no path that entered `hash()` with an already-recorded
error appears in `paths` afterwards. -/
theorem c3_walker_states :
    (∀ (collected : List FsPath) (invalid : List (FsPath × WErr))
        (w : WalkerState) (x : HashItem),
        x ∈ (Walker.collect collected invalid w).paths ->
        x.2 = none ∨ ∃ e, x.2 = some (Except.error e)) ∧
      (∀ (ex : FsPath -> Bool) (hashFn : FsPath -> Except WErr ByteList)
        (tol : Tolerance) (ppj : Nat) (H : List ByteList -> ByteList)
        (w : WalkerState) (x : HashItem),
        x ∈ ((Walker.hash ex hashFn tol ppj H w).2).paths ->
        ∃ r, x.2 = some r) ∧
      ∀ (ex : FsPath -> Bool) (hashFn : FsPath -> Except WErr ByteList)
        (tol : Tolerance) (ppj : Nat) (H : List ByteList -> ByteList)
        (w : WalkerState) (p : FsPath) (st : Except WErr ByteList),
        (w.paths.map Prod.fst).Nodup -> (p, some st) ∈ w.paths ->
        p ∉ ((Walker.hash ex hashFn tol ppj H w).2).paths.map Prod.fst := by
  refine ⟨?_, ?_, ?_⟩
  · intro collected invalid w x hx
    simp only [Walker.collect, Walker.reset, List.nil_append,
      List.mem_append, List.mem_map] at hx
    rcases hx with ⟨p, _, hpx⟩ | ⟨pe, _, hpx⟩
    · exact Or.inl (by rw [← hpx])
    · exact Or.inr ⟨pe.2, by rw [← hpx]⟩
  · intro ex hashFn tol ppj H w x hx
    unfold Walker.hash at hx
    by_cases hpe : w.paths.isEmpty = true
    · rw [if_pos hpe] at hx
      simp only at hx
      rw [List.isEmpty_iff] at hpe
      rw [hpe] at hx
      simp at hx
    · rw [if_neg hpe] at hx
      cases hr : run_hashing ex hashFn tol ppj w.paths [] with
      | error e =>
        rw [hr] at hx
        simp at hx
      | ok hashes =>
        rw [hr] at hx
        simp only at hx
        have hmem : x ∈ hashes :=
          (List.mem_insertionSort hashItemLe).1 hx
        rcases run_hashing_spec ex hashFn tol ppj w.paths.length w.paths []
            hashes le_rfl hr x hmem with h2 | ⟨h2, _⟩
        · simp at h2
        · exact h2
  · intro ex hashFn tol ppj H w p st hn hp hcontra
    unfold Walker.hash at hcontra
    by_cases hpe : w.paths.isEmpty = true
    · rw [List.isEmpty_iff] at hpe
      rw [hpe] at hp
      simp at hp
    · rw [if_neg hpe] at hcontra
      cases hr : run_hashing ex hashFn tol ppj w.paths [] with
      | error e =>
        rw [hr] at hcontra
        simp at hcontra
      | ok hashes =>
        rw [hr] at hcontra
        simp only [List.mem_map] at hcontra
        obtain ⟨x, hx, hxp⟩ := hcontra
        have hmem : x ∈ hashes :=
          (List.mem_insertionSort hashItemLe).1 hx
        rcases run_hashing_spec ex hashFn tol ppj w.paths.length w.paths []
            hashes le_rfl hr x hmem with h2 | ⟨_, h3⟩
        · simp at h2
        · rw [hxp] at h3
          have heq := List.inj_on_of_nodup_map hn h3 hp rfl
          simp at heq

/-- Witness for C3: a walker holding one Unhashed path and one
collect-error path (distinct paths); the collect-error path is absent
from `paths` after `hash()`. -/
theorem c3_witness :
    (((WalkerState.mk [([[3]], none),
        ([[4]], some (Except.error WErr.aborted))] none false).paths.map
      Prod.fst).Nodup ∧
      (([[4]], some (Except.error WErr.aborted)) : HashItem) ∈
        (WalkerState.mk [([[3]], none),
          ([[4]], some (Except.error WErr.aborted))] none false).paths) ∧
      [[4]] ∉ ((Walker.hash (fun _ => true) (fun _ => Except.ok [1])
          Tolerance.logErrors 2 (fun _ => [9])
          (WalkerState.mk [([[3]], none),
            ([[4]], some (Except.error WErr.aborted))] none
            false)).2).paths.map Prod.fst :=
  ⟨⟨by decide, by simp⟩,
    c3_walker_states.2.2 (fun _ => true) (fun _ => Except.ok [1])
      Tolerance.logErrors 2 (fun _ => [9])
      (WalkerState.mk [([[3]], none),
        ([[4]], some (Except.error WErr.aborted))] none false)
      [[4]] (Except.error WErr.aborted) (by decide) (by simp)⟩

end Fshasher
